import Mathlib

/-!
Verification of the SonoTag frame-wise detection pipeline.

This file gives a shallow embedding of the core numeric processing of
`backend/app/main.py` and proves the specified properties about it:

* the window preparation (truncate or loop-tile) inlined in
  `classify_audio` / `classify_audio_local` (tiling to `EXPECTED_SAMPLES`),
* the chunk splitting loop of `analyze_youtube`,
* the temporal smoother `postprocess_frame_scores`,
* the rounding and aggregation of per-frame scores.

Audio samples and scores are modelled as rationals (the Python floats are
used only through order comparisons, `max`, `min`, sums and division in the
regimes the claims speak about); Python lists become Lean lists, and the
index-mutation `while` loops of the smoother become fuel-indexed structural
recursions (the fuel is the loop bound `n - i`, which the source loop
respects because `i` strictly increases while the list length is fixed).
Rounding `round(x, 4)` is modelled as rounding half-up at four decimals;
the claims never evaluate it at a tie.
-/

/-- Error outcomes of the window-preparation code.  The source has no
`InvalidInputError` class; the only failure the inline code can produce is
the `ZeroDivisionError` raised by `np.ceil(EXPECTED_SAMPLES / len(buffer))`
when the buffer is empty.  `invalidInputError` is included so that the
spec's claimed error can be stated and compared. -/
inductive AudioError where
  | zeroDivisionError
  | invalidInputError
deriving DecidableEq, Repr

/-- `np.tile(buffer, ceil(w / len(buffer)))[:w]` — the looping tile of
`classify_audio` (main.py:649-653) and `analyze_youtube` (main.py:1103-1105). -/
def tileTo (buffer : List α) (w : Nat) : List α :=
  ((List.replicate ((w + buffer.length - 1) / buffer.length) buffer).flatten).take w

/-- Window preparation as inlined in `classify_audio` (main.py:639-653):
truncate to the first `window_samples` samples when longer
(`audio_array[:max_samples]` with `max_samples = EXPECTED_SAMPLES`), tile
when shorter, return unchanged when equal.  An empty buffer reaches the
division `EXPECTED_SAMPLES / len(audio_array)` and raises
`ZeroDivisionError`. -/
def prepare_window (buffer : List α) (window_samples : Nat) :
    Except AudioError (List α) :=
  if window_samples < buffer.length then .ok (buffer.take window_samples)
  else if buffer.length < window_samples then
    if buffer.length = 0 then .error .zeroDivisionError
    else .ok (tileTo buffer window_samples)
  else .ok buffer

/-- The chunk-splitting loop of `analyze_youtube` (main.py:1098-1106):
`for start in range(0, len(buffer), chunk_samples)`, with
`end = min(start + chunk_samples, len(buffer))`, slice
`buffer[start:end]`, and tiling to `window_samples` only when the slice is
shorter.  Each emitted entry is `(start_sample, end_sample, window)`. -/
def split_into_windows (buffer : List α) (chunk_samples window_samples : Nat) :
    List (Nat × Nat × List α) :=
  (List.range ((buffer.length + chunk_samples - 1) / chunk_samples)).map fun i =>
    let start := i * chunk_samples
    let stop := min (start + chunk_samples) buffer.length
    let chunk := (buffer.drop start).take (stop - start)
    (start, stop,
      if chunk.length < window_samples then tileTo chunk window_samples else chunk)

/-!
## The temporal smoother `postprocess_frame_scores` (main.py:63-168)
-/

/-- Length of the initial run of `v`-valued entries: models the inner scan
`while i < n and binary[i] == v: i += 1` of the smoother. -/
def countRun (v : Bool) : List Bool → Nat
  | [] => 0
  | x :: xs => if x == v then countRun v xs + 1 else 0

/-- First index `j ≥ i` with `j = n` or `binary[j] ≠ v`: the value of `i`
after the inner scan loops of `postprocess_frame_scores`. -/
def findRunEnd (v : Bool) (b : List Bool) (i : Nat) : Nat :=
  i + countRun v (b.drop i)

/-- `for j in range(s, s + k): b[j] = v` as sequential `List.set`s. -/
def setRange (v : Bool) (b : List Bool) (s : Nat) : Nat → List Bool
  | 0 => b
  | k + 1 => setRange v (b.set s v) (s + 1) k

/-- The gap-filling pass of `postprocess_frame_scores` (main.py:100-123):
scan from index `i`; at a zero entry find the end `ge` of the zero run,
fill `[i, ge)` with ones when the gap has a one on both sides and is
strictly shorter than `min_gap_frames`, and continue from `ge`.  `fuel`
bounds the iteration count; `b.length - i` steps always suffice. -/
def fillLoopF (mg : Nat) : Nat → List Bool → Nat → List Bool
  | 0, b, _ => b
  | fuel + 1, b, i =>
    if i < b.length then
      if b.getD i false then fillLoopF mg fuel b (i + 1)
      else
        let ge := findRunEnd false b i
        let fill := decide (0 < i) && b.getD (i - 1) false &&
          decide (ge < b.length) && b.getD ge false && decide (ge - i < mg)
        fillLoopF mg fuel (if fill then setRange true b i (ge - i) else b) ge
    else b

/-- Step 1 of the smoother, started as in the source at `i = 0`. -/
def fillGaps (mg : Nat) (b : List Bool) : List Bool :=
  fillLoopF mg b.length b 0

/-- The positive-segment scan of step 2 (main.py:131-143): collect the
maximal one-runs `(seg_start, seg_end)` from index `i` on. -/
def posSegmentsF : Nat → List Bool → Nat → List (Nat × Nat)
  | 0, _, _ => []
  | fuel + 1, b, i =>
    if i < b.length then
      if b.getD i false then
        (i, findRunEnd true b i) :: posSegmentsF fuel b (findRunEnd true b i)
      else posSegmentsF fuel b (i + 1)
    else []

/-- All maximal one-runs of `b`, as the source computes them. -/
def posSegments (b : List Bool) : List (Nat × Nat) :=
  posSegmentsF b.length b 0

/-- The zeroing loop of step 2: for every collected segment strictly
shorter than `msf`, write zeros over its frames. -/
def spikeFoldF (msf : Nat) (segs : List (Nat × Nat)) (c : List Bool) : List Bool :=
  segs.foldl
    (fun c p => if p.2 - p.1 < msf then setRange false c p.1 (p.2 - p.1) else c) c

/-- Step 2 of the smoother (main.py:144-153): zero every positive segment
strictly shorter than `min_spike_frames`, but only when the total positive
mass is strictly greater than `min_event_frames`. -/
def spikeRemove (msf mef : Nat) (b : List Bool) : List Bool :=
  let segs := posSegments b
  let total := (segs.map fun p => p.2 - p.1).sum
  if mef < total then spikeFoldF msf segs b
  else b

/-- `binary = [1 if s >= threshold else 0 for s in scores]` (main.py:92). -/
def binarize (threshold : ℚ) (scores : List ℚ) : List Bool :=
  scores.map fun s => decide (threshold ≤ s)

/-- Step 3 of the smoother (main.py:155-168): positive frames emit
`max(score, threshold)`, negative frames `min(score, threshold * 0.5)`. -/
def reconstruct (scores : List ℚ) (threshold : ℚ) (b : List Bool) : List ℚ :=
  (scores.zip b).map fun p =>
    if p.2 then max p.1 threshold else min p.1 (threshold * (1 / 2))

/-- `postprocess_frame_scores` (main.py:63-168): empty input is returned
unchanged; otherwise binarize, fill gaps, remove spikes, reconstruct. -/
def postprocess_frame_scores (scores : List ℚ) (threshold : ℚ)
    (min_gap_frames min_spike_frames min_event_frames : Nat) : List ℚ :=
  if scores.length = 0 then scores
  else
    reconstruct scores threshold
      (spikeRemove min_spike_frames min_event_frames
        (fillGaps min_gap_frames (binarize threshold scores)))

/-!
## Declarative description of the gap-filling pass

`runStart`/`gapFillVal` read only the immutable original binarization; they
are the yardstick both the source loop and the run-length decomposition are
measured against.
-/

/-- Start of the maximal constant run of `b` containing index `j`. -/
def runStart (b : List Bool) : Nat → Nat
  | 0 => 0
  | j + 1 => if b.getD j false == b.getD (j + 1) false then runStart b j else j + 1

/-- The fill decision of the source loop for a gap `[s, e)`, evaluated
against the array `b`: a one on both sides and length strictly below `mg`. -/
def gapCond (b : List Bool) (mg s e : Nat) : Bool :=
  decide (0 < s) && b.getD (s - 1) false && decide (e < b.length) &&
    b.getD e false && decide (e - s < mg)

/-- The value frame `j` gets from gap filling, decided entirely from the
original binarization: a zero frame becomes one exactly when its maximal
zero run is bounded by ones on both sides and is strictly shorter than
`mg`. -/
def gapFillVal (b : List Bool) (mg : Nat) (j : Nat) : Bool :=
  if b.getD j false then true
  else gapCond b mg (runStart b j) (findRunEnd false b j)

/-- Maximal-run decomposition `(start, end, value)` of `b` from index `i`. -/
def runsFrom : Nat → List Bool → Nat → List (Nat × Nat × Bool)
  | 0, _, _ => []
  | fuel + 1, b, i =>
    if i < b.length then
      (i, findRunEnd (b.getD i false) b i, b.getD i false) ::
        runsFrom fuel b (findRunEnd (b.getD i false) b i)
    else []

/-- Maximal-run decomposition of `b`. -/
def runs (b : List Bool) : List (Nat × Nat × Bool) :=
  runsFrom b.length b 0

/-- Apply, onto `c`, the fills that the run decomposition of the immutable
array `b` (from index `i`, with `fuel` steps) prescribes: a zero run is
filled exactly when `gapCond b` holds for its boundaries, every decision
being read off `b`, never off the partially written `c`. -/
def fillGapsSpecFrom (b : List Bool) (mg fuel i : Nat) (c : List Bool) : List Bool :=
  (runsFrom fuel b i).foldl
    (fun c r =>
      if !r.2.2 && gapCond b mg r.1 r.2.1 then setRange true c r.1 (r.2.1 - r.1)
      else c)
    c

/-- The gap-filling pass as the spec words it (spec §4.2 rule 1, §9): first
compute the run-length decomposition of the immutable binarization, decide
every fill from it, then apply all fills. -/
def fillGapsSpec (b : List Bool) (mg : Nat) : List Bool :=
  fillGapsSpecFrom b mg b.length 0 b

/-!
## Rounding and aggregation
-/

/-- `round(x, 4)`: round to four decimal places (half-up on rationals). -/
def round4 (q : ℚ) : ℚ := (round (q * 10000) : ℤ) / 10000

/-- `np.mean` of a list of scores (`sum / len`; division by zero models the
NaN that `np.mean([])` produces only through the callers, which guard it). -/
def npMean (l : List ℚ) : ℚ := l.sum / (l.length : ℚ)

/-- The returned per-frame series of `classify_audio_local` (main.py:855):
each raw frame score rounded to four decimals independently. -/
def frame_scores_out (raw : List ℚ) : List ℚ := raw.map round4

/-- The returned global score of `classify_audio_local` (main.py:860-861):
the mean of the raw (unrounded) frame scores, rounded once at the end. -/
def global_score_out (raw : List ℚ) : ℚ := round4 (npMean raw)

/-- Failure of a Python dict subscript `c.global_scores[prompt]`. -/
inductive DictError where
  | keyError
deriving DecidableEq, Repr

/-- `m[k]` on a dict modelled as an association list. -/
def dictGet (m : List (String × ℚ)) (k : String) : Except DictError ℚ :=
  match m.lookup k with
  | some v => .ok v
  | none => .error .keyError

/-- Cross-chunk aggregation of `analyze_youtube` (main.py:1142-1146):
`for prompt in prompt_list: aggregated[prompt] =
round(np.mean([c.global_scores[prompt] for c in chunk_results]), 4)`.
`np.mean([])` yields NaN, modelled as `none`; a missing key raises
`KeyError`. -/
def aggregate_chunks (prompt_list : List String)
    (chunk_results : List (List (String × ℚ))) :
    Except DictError (List (String × Option ℚ)) :=
  prompt_list.mapM fun p =>
    (chunk_results.mapM fun c => dictGet c p).map fun scores =>
      (p, if scores.length = 0 then none else some (round4 (npMean scores)))

/-!
## Basic list lemmas
-/

lemma getD_false_of_le {l : List Bool} {j : Nat} (h : l.length ≤ j) :
    l.getD j false = false := by
  rw [List.getD_eq_getElem?_getD, List.getElem?_eq_none h]
  rfl

lemma getElem?_eq_of_getD {a b : List α} {d : α} (hlen : a.length = b.length) (j : Nat)
    (h : a.getD j d = b.getD j d) : a[j]? = b[j]? := by
  by_cases hj : j < b.length
  · have hj' : j < a.length := hlen ▸ hj
    rw [List.getElem?_eq_getElem hj', List.getElem?_eq_getElem hj]
    rw [List.getD_eq_getElem a d hj', List.getD_eq_getElem b d hj] at h
    exact congrArg some h
  · have hb : b.length ≤ j := le_of_not_lt hj
    rw [List.getElem?_eq_none hb, List.getElem?_eq_none (hlen ▸ hb)]

lemma list_ext_getD {a b : List α} (d : α) (hlen : a.length = b.length)
    (h : ∀ j, a.getD j d = b.getD j d) : a = b :=
  List.ext_getElem? fun j => getElem?_eq_of_getD hlen j (h j)

lemma drop_eq_of_getD {a b : List α} (d : α) (hlen : a.length = b.length) (i : Nat)
    (h : ∀ j, i ≤ j → a.getD j d = b.getD j d) : a.drop i = b.drop i := by
  apply List.ext_getElem?
  intro k
  rw [List.getElem?_drop, List.getElem?_drop]
  exact getElem?_eq_of_getD hlen _ (h _ (Nat.le_add_right i k))

/-!
## Tiling lemmas
-/

lemma length_flatten_replicate (r : Nat) (l : List α) :
    ((List.replicate r l).flatten).length = r * l.length := by
  rw [List.length_flatten, List.map_replicate, List.sum_replicate, smul_eq_mul]

lemma getElem?_flatten_replicate {l : List α} :
    ∀ (r i : Nat), i < r * l.length →
      ((List.replicate r l).flatten)[i]? = l[i % l.length]? := by
  intro r
  induction r with
  | zero => intro i hi; simp at hi
  | succ r ih =>
    intro i hi
    rw [List.replicate_succ, List.flatten_cons]
    by_cases h : i < l.length
    · rw [List.getElem?_append, if_pos h, Nat.mod_eq_of_lt h]
    · push_neg at h
      have hi2 : i < r * l.length + l.length := by
        calc i < (r + 1) * l.length := hi
          _ = r * l.length + l.length := by ring
      have hi' : i - l.length < r * l.length := by omega
      rw [List.getElem?_append_right h, ih (i - l.length) hi',
        ← Nat.mod_eq_sub_mod h]

lemma le_ceil_mul {w len : Nat} (h : 0 < len) : w ≤ ((w + len - 1) / len) * len := by
  have h1 := Nat.div_add_mod (w + len - 1) len
  have h2 : (w + len - 1) % len < len := Nat.mod_lt _ h
  rw [Nat.mul_comm]
  omega

lemma tileTo_length {l : List α} (hl : l ≠ []) (w : Nat) : (tileTo l w).length = w := by
  have hlen : 0 < l.length := List.length_pos.mpr hl
  rw [tileTo, List.length_take, length_flatten_replicate]
  exact min_eq_left (le_ceil_mul hlen)

lemma tileTo_getElem? {l : List α} (hl : l ≠ []) {w i : Nat} (hi : i < w) :
    (tileTo l w)[i]? = l[i % l.length]? := by
  have hlen : 0 < l.length := List.length_pos.mpr hl
  rw [tileTo, List.getElem?_take, if_pos hi]
  exact getElem?_flatten_replicate _ _ (lt_of_lt_of_le hi (le_ceil_mul hlen))

/-- C1: for every non-empty sample buffer and positive `window_samples`,
the window preparation succeeds and returns a buffer of length exactly
`window_samples`: longer input is truncated to its first `window_samples`
samples, input of exactly that length is returned unchanged, and shorter
input is loop-tiled so that the output at every index `i` equals
`buffer[i % len(buffer)]`. -/
theorem prepare_window_correct (buffer : List ℚ) (w : Nat)
    (hb : buffer ≠ []) (_hw : 0 < w) :
    ∃ out, prepare_window buffer w = .ok out ∧ out.length = w ∧
      (w < buffer.length → out = buffer.take w) ∧
      (buffer.length = w → out = buffer) ∧
      (buffer.length < w → ∀ i, i < w →
        out[i]? = buffer[i % buffer.length]?) := by
  rcases lt_trichotomy w buffer.length with h | h | h
  · refine ⟨buffer.take w, ?_, ?_, fun _ => rfl, fun he => absurd he (by omega),
      fun he => absurd he (by omega)⟩
    · rw [prepare_window, if_pos h]
    · rw [List.length_take]
      exact min_eq_left (le_of_lt h)
  · refine ⟨buffer, ?_, h.symm, fun he => absurd he (by omega),
      fun _ => rfl, fun he => absurd he (by omega)⟩
    rw [prepare_window, if_neg (by omega), if_neg (by omega)]
  · refine ⟨tileTo buffer w, ?_, tileTo_length hb w,
      fun he => absurd he (by omega), fun he => absurd he (by omega),
      fun _ i hi => tileTo_getElem? hb hi⟩
    rw [prepare_window, if_neg (by omega), if_pos h,
      if_neg (by have := List.length_pos.mpr hb; omega)]

/-- C1 witness: a concrete instance of `prepare_window_correct`. -/
theorem prepare_window_correct_witness :
    ([(1 : ℚ), 2, 3] ≠ [] ∧ 0 < 5) ∧
      ∃ out, prepare_window [(1 : ℚ), 2, 3] 5 = .ok out ∧ out.length = 5 := by
  refine ⟨⟨by decide, by decide⟩, ?_⟩
  obtain ⟨out, h1, h2, -, -, -⟩ := prepare_window_correct [(1 : ℚ), 2, 3] 5
    (by decide) (by decide)
  exact ⟨out, h1, h2⟩

/-!
## Scan-loop lemmas
-/

lemma countRun_le_length (v : Bool) : ∀ l : List Bool, countRun v l ≤ l.length
  | [] => le_refl _
  | x :: xs => by
    rw [countRun]
    by_cases h : x == v
    · rw [if_pos h, List.length_cons]
      exact Nat.succ_le_succ (countRun_le_length v xs)
    · rw [if_neg h]
      exact Nat.zero_le _

lemma countRun_getD (v : Bool) :
    ∀ (l : List Bool) (k : Nat), k < countRun v l → l.getD k false = v
  | [], k, h => by rw [countRun] at h; omega
  | x :: xs, k, h => by
    rw [countRun] at h
    by_cases hx : x == v
    · rw [if_pos hx] at h
      cases k with
      | zero => simpa using hx
      | succ k =>
        rw [List.getD_cons_succ]
        exact countRun_getD v xs k (by omega)
    · rw [if_neg hx] at h
      omega

lemma countRun_stop (v : Bool) :
    ∀ l : List Bool, countRun v l < l.length → l.getD (countRun v l) false = !v
  | [], h => by simp at h
  | x :: xs, h => by
    rw [countRun] at h ⊢
    by_cases hx : x == v
    · rw [if_pos hx] at h ⊢
      rw [List.getD_cons_succ]
      exact countRun_stop v xs (by simpa using h)
    · rw [if_neg hx] at h ⊢
      rw [List.getD_cons_zero]
      have : x ≠ v := by simpa using hx
      cases x <;> cases v <;> simp_all

lemma countRun_pos {v : Bool} {l : List Bool} (hl : 0 < l.length)
    (h : l.getD 0 false = v) : 0 < countRun v l := by
  cases l with
  | nil => simp at hl
  | cons x xs =>
    rw [List.getD_cons_zero] at h
    rw [countRun, if_pos (by simp [h])]
    omega

lemma countRun_drop (v : Bool) :
    ∀ (l : List Bool) (m : Nat), m ≤ countRun v l →
      countRun v (l.drop m) = countRun v l - m
  | _, 0, _ => by simp
  | [], m + 1, hm => by rw [countRun] at hm; omega
  | x :: xs, m + 1, hm => by
    have hx : x == v := by
      by_contra hx
      rw [countRun, if_neg hx] at hm
      omega
    rw [countRun, if_pos hx] at hm
    rw [List.drop_succ_cons, countRun, if_pos hx,
      countRun_drop v xs m (by omega)]
    omega

lemma le_findRunEnd (v : Bool) (b : List Bool) (i : Nat) : i ≤ findRunEnd v b i :=
  Nat.le_add_right _ _

lemma findRunEnd_le_length (v : Bool) {b : List Bool} {i : Nat} (h : i ≤ b.length) :
    findRunEnd v b i ≤ b.length := by
  have := countRun_le_length v (b.drop i)
  rw [List.length_drop] at this
  rw [findRunEnd]
  omega

lemma findRunEnd_getD (v : Bool) {b : List Bool} {i j : Nat} (hij : i ≤ j)
    (hj : j < findRunEnd v b i) : b.getD j false = v := by
  have h := countRun_getD v (b.drop i) (j - i) (by rw [findRunEnd] at hj; omega)
  rw [List.getD_eq_getElem?_getD, List.getElem?_drop, Nat.add_sub_cancel' hij] at h
  rwa [List.getD_eq_getElem?_getD]

lemma findRunEnd_stop (v : Bool) {b : List Bool} {i : Nat}
    (h : findRunEnd v b i < b.length) :
    b.getD (findRunEnd v b i) false = !v := by
  have hc : countRun v (b.drop i) < (b.drop i).length := by
    rw [List.length_drop]
    rw [findRunEnd] at h
    omega
  have h2 := countRun_stop v (b.drop i) hc
  rw [List.getD_eq_getElem?_getD, List.getElem?_drop] at h2
  rw [findRunEnd, List.getD_eq_getElem?_getD]
  exact h2

lemma findRunEnd_lt {v : Bool} {b : List Bool} {i : Nat} (hi : i < b.length)
    (hv : b.getD i false = v) : i < findRunEnd v b i := by
  have h0 : (b.drop i).getD 0 false = v := by
    rw [List.getD_eq_getElem?_getD, List.getElem?_drop, Nat.add_zero,
      ← List.getD_eq_getElem?_getD]
    exact hv
  have := countRun_pos (v := v) (l := b.drop i) (by rw [List.length_drop]; omega) h0
  rw [findRunEnd]
  omega

lemma findRunEnd_stable {v : Bool} {b : List Bool} {i j : Nat} (hij : i ≤ j)
    (hj : j ≤ findRunEnd v b i) : findRunEnd v b j = findRunEnd v b i := by
  rw [findRunEnd] at hj
  have hd : b.drop j = (b.drop i).drop (j - i) := by
    rw [List.drop_drop, Nat.add_sub_cancel' hij]
  rw [findRunEnd, hd, countRun_drop v (b.drop i) (j - i) (by omega), findRunEnd]
  omega

lemma findRunEnd_congr {v : Bool} {b c : List Bool} {i : Nat}
    (h : c.drop i = b.drop i) : findRunEnd v c i = findRunEnd v b i := by
  rw [findRunEnd, findRunEnd, h]

lemma getD_of_drop_eq {c b : List α} {i : Nat} (h : c.drop i = b.drop i) (d : α)
    {j : Nat} (hij : i ≤ j) : c.getD j d = b.getD j d := by
  rw [List.getD_eq_getElem?_getD, List.getD_eq_getElem?_getD]
  have h1 : (c.drop i)[j - i]? = (b.drop i)[j - i]? := by rw [h]
  rw [List.getElem?_drop, List.getElem?_drop, Nat.add_sub_cancel' hij] at h1
  rw [h1]

lemma setRange_length (v : Bool) :
    ∀ (k : Nat) (b : List Bool) (s : Nat), (setRange v b s k).length = b.length
  | 0, _, _ => rfl
  | k + 1, b, s => by
    rw [setRange, setRange_length v k, List.length_set]

lemma setRange_getElem? (v : Bool) :
    ∀ (k : Nat) (b : List Bool) (s j : Nat),
      (setRange v b s k)[j]? =
        if s ≤ j ∧ j < s + k then (if j < b.length then some v else none) else b[j]?
  | 0, b, s, j => by rw [setRange, if_neg (by omega)]
  | k + 1, b, s, j => by
    rw [setRange, setRange_getElem? v k, List.length_set]
    by_cases hj : s + 1 ≤ j ∧ j < s + 1 + k
    · rw [if_pos hj, if_pos (show s ≤ j ∧ j < s + (k + 1) by omega)]
    · rw [if_neg hj, List.getElem?_set]
      by_cases hsj : s = j
      · subst hsj
        rw [if_pos rfl, if_pos (show s ≤ s ∧ s < s + (k + 1) by omega)]
      · rw [if_neg hsj, if_neg (show ¬(s ≤ j ∧ j < s + (k + 1)) by omega)]

lemma setRange_getD (v : Bool) (k : Nat) (b : List Bool) (s j : Nat) :
    (setRange v b s k).getD j false =
      if s ≤ j ∧ j < s + k ∧ j < b.length then v else b.getD j false := by
  rw [List.getD_eq_getElem?_getD, setRange_getElem?]
  by_cases h1 : s ≤ j ∧ j < s + k
  · rw [if_pos h1]
    by_cases h2 : j < b.length
    · rw [if_pos h2, if_pos ⟨h1.1, h1.2, h2⟩]
      rfl
    · rw [if_neg h2, if_neg (by tauto), List.getD_eq_getElem?_getD,
        List.getElem?_eq_none (by omega)]
  · rw [if_neg h1, if_neg (by tauto), ← List.getD_eq_getElem?_getD]

lemma runStart_le (b : List Bool) : ∀ j, runStart b j ≤ j
  | 0 => le_refl 0
  | j + 1 => by
    rw [runStart]
    by_cases h : b.getD j false == b.getD (j + 1) false
    · rw [if_pos h]
      exact le_trans (runStart_le b j) (by omega)
    · rw [if_neg h]

lemma runStart_getD (b : List Bool) :
    ∀ (j k : Nat), runStart b j ≤ k → k ≤ j → b.getD k false = b.getD j false
  | 0, k, _, h2 => by rw [Nat.le_zero.mp h2]
  | j + 1, k, h1, h2 => by
    rw [runStart] at h1
    by_cases he : b.getD j false == b.getD (j + 1) false
    · rw [if_pos he] at h1
      have hv : b.getD j false = b.getD (j + 1) false := by simpa using he
      rcases Nat.lt_or_ge k (j + 1) with hk | hk
      · rw [← hv]
        exact runStart_getD b j k h1 (by omega)
      · have hk1 : k = j + 1 := by omega
        rw [hk1]
    · rw [if_neg he] at h1
      have hk1 : k = j + 1 := by omega
      rw [hk1]

lemma runStart_unique (b : List Bool) (s : Nat)
    (hs : s = 0 ∨ b.getD (s - 1) false ≠ b.getD s false) :
    ∀ j, s ≤ j → (∀ k, s ≤ k → k ≤ j → b.getD k false = b.getD j false) →
      runStart b j = s := by
  intro j
  induction j with
  | zero =>
    intro hsj _
    rw [runStart]
    omega
  | succ j ih =>
    intro hsj hall
    rcases Nat.eq_or_lt_of_le hsj with heq | hlt
    · rcases hs with h0 | hne
      · omega
      · have hne' : b.getD j false ≠ b.getD (j + 1) false := by
          rw [show s - 1 = j from by omega, heq] at hne
          exact hne
        rw [runStart, if_neg (by simpa using hne')]
        omega
    · have hj : b.getD j false = b.getD (j + 1) false :=
        hall j (by omega) (by omega)
      rw [runStart, if_pos (by rw [hj]; exact beq_self_eq_true _)]
      exact ih (by omega) (fun k hk1 hk2 => by rw [hall k hk1 (by omega), hj])

/-!
## Pointwise characterization of the gap-filling loop
-/

lemma gapFillVal_of_true {b : List Bool} (mg : Nat) {j : Nat}
    (h : b.getD j false = true) : gapFillVal b mg j = true := by
  rw [gapFillVal, if_pos h]

lemma gapFillVal_of_le {b : List Bool} (mg : Nat) {j : Nat} (hj : b.length ≤ j) :
    gapFillVal b mg j = false := by
  have hb : b.getD j false = false := getD_false_of_le hj
  have he : findRunEnd false b j = j := by
    rw [findRunEnd, List.drop_eq_nil_of_le hj]
    rfl
  rw [gapFillVal, if_neg (by rw [hb]; exact Bool.false_ne_true), he]
  simp [gapCond, show ¬ j < b.length from not_lt.mpr hj]

lemma gapFillVal_eq_in_gap {b : List Bool} {mg i j : Nat}
    (hi : i < b.length) (hbi : b.getD i false = false)
    (hstart : i = 0 ∨ b.getD (i - 1) false = true)
    (hij : i ≤ j) (hj : j < findRunEnd false b i) :
    gapFillVal b mg j = gapCond b mg i (findRunEnd false b i) := by
  have hbj : b.getD j false = false := findRunEnd_getD false hij hj
  have hs : i = 0 ∨ b.getD (i - 1) false ≠ b.getD i false := by
    rcases hstart with h0 | h1
    · exact Or.inl h0
    · right
      rw [h1, hbi]
      simp
  have hrs : runStart b j = i :=
    runStart_unique b i hs j hij (fun k hk1 _hk2 => by
      rw [findRunEnd_getD false hk1 (by omega : k < findRunEnd false b i), hbj])
  have hfe : findRunEnd false b j = findRunEnd false b i :=
    findRunEnd_stable hij (le_of_lt hj)
  rw [gapFillVal, if_neg (by rw [hbj]; exact Bool.false_ne_true), hrs, hfe]

lemma fillLoopF_char (mg : Nat) (b : List Bool) :
    ∀ (fuel : Nat) (c : List Bool) (i : Nat),
      c.length = b.length →
      b.length ≤ fuel + i →
      c.drop i = b.drop i →
      (∀ j, b.getD j false = true → c.getD j false = true) →
      (i = 0 ∨ b.getD (i - 1) false = true ∨ b.length ≤ i ∨ b.getD i false = true) →
      (∀ j, i ≤ j → (fillLoopF mg fuel c i).getD j false = gapFillVal b mg j) ∧
      (∀ j, j < i → (fillLoopF mg fuel c i).getD j false = c.getD j false) ∧
      (fillLoopF mg fuel c i).length = b.length := by
  intro fuel
  induction fuel with
  | zero =>
    intro c i hlen hfuel _hdrop _hmono _hprev
    refine ⟨?_, fun j _ => rfl, hlen⟩
    intro j hij
    show c.getD j false = gapFillVal b mg j
    rw [getD_false_of_le (by omega : c.length ≤ j),
      gapFillVal_of_le mg (by omega : b.length ≤ j)]
  | succ fuel ih =>
    intro c i hlen hfuel hdrop hmono hprev
    by_cases hi : i < b.length
    case neg =>
      have hstep : fillLoopF mg (fuel + 1) c i = c := by
        rw [fillLoopF, if_neg (by omega : ¬ i < c.length)]
      rw [hstep]
      refine ⟨?_, fun j _ => rfl, hlen⟩
      intro j hij
      rw [getD_false_of_le (by omega : c.length ≤ j),
        gapFillVal_of_le mg (by omega : b.length ≤ j)]
    case pos =>
      have hic : i < c.length := by omega
      have hpt : ∀ j, i ≤ j → c.getD j false = b.getD j false :=
        fun j h => getD_of_drop_eq hdrop false h
      by_cases hbi : b.getD i false = true
      case pos =>
        have hstep : fillLoopF mg (fuel + 1) c i = fillLoopF mg fuel c (i + 1) := by
          rw [fillLoopF, if_pos hic, if_pos (by rw [hpt i le_rfl]; exact hbi)]
        have hdrop1 : c.drop (i + 1) = b.drop (i + 1) := by
          have h1 : List.drop 1 (List.drop i c) = List.drop 1 (List.drop i b) := by
            rw [hdrop]
          rwa [List.drop_drop, List.drop_drop] at h1
        obtain ⟨ih1, ih2, ih3⟩ := ih c (i + 1) hlen (by omega) hdrop1 hmono
          (Or.inr (Or.inl (by simpa using hbi)))
        rw [hstep]
        refine ⟨?_, ?_, ih3⟩
        · intro j hij
          rcases Nat.eq_or_lt_of_le hij with heq | hlt
          · rw [← heq, ih2 i (by omega), hpt i le_rfl, hbi, gapFillVal_of_true mg hbi]
          · exact ih1 j hlt
        · intro j hj
          exact ih2 j (by omega)
      case neg =>
        have hbif : b.getD i false = false := by
          cases hcb : b.getD i false
          · rfl
          · exact absurd hcb hbi
        have hcif : c.getD i false = false := by
          rw [hpt i le_rfl]
          exact hbif
        have hgec : findRunEnd false c i = findRunEnd false b i :=
          findRunEnd_congr hdrop
        have hgei : i < findRunEnd false b i := findRunEnd_lt hi hbif
        have hgelen : findRunEnd false b i ≤ b.length :=
          findRunEnd_le_length false (le_of_lt hi)
        have hprev2 : i = 0 ∨ b.getD (i - 1) false = true := by
          rcases hprev with h | h | h | h
          · exact Or.inl h
          · exact Or.inr h
          · omega
          · rw [h] at hbif
            exact absurd hbif (by simp)
        have hfill_eq : gapCond c mg i (findRunEnd false c i) =
            gapCond b mg i (findRunEnd false b i) := by
          rw [gapCond, gapCond, hgec, hlen, hpt (findRunEnd false b i) (le_of_lt hgei)]
          rcases hprev2 with h0 | h1
          · rw [h0]
            simp
          · rw [h1, hmono _ h1]
        have hstep : fillLoopF mg (fuel + 1) c i =
            fillLoopF mg fuel
              (if gapCond b mg i (findRunEnd false b i) = true
               then setRange true c i (findRunEnd false b i - i) else c)
              (findRunEnd false b i) := by
          rw [fillLoopF, if_pos hic, if_neg (by rw [hcif]; exact Bool.false_ne_true)]
          show fillLoopF mg fuel
              (if gapCond c mg i (findRunEnd false c i) = true
               then setRange true c i (findRunEnd false c i - i) else c)
              (findRunEnd false c i) = _
          rw [hfill_eq, hgec]
        set c2 := (if gapCond b mg i (findRunEnd false b i) = true
          then setRange true c i (findRunEnd false b i - i) else c) with hc2
        have hc2len : c2.length = b.length := by
          rw [hc2]
          split
          · rw [setRange_length]
            exact hlen
          · exact hlen
        have hc2out : ∀ j, findRunEnd false b i ≤ j →
            c2.getD j false = c.getD j false := by
          intro j hj
          rw [hc2]
          split
          · rw [setRange_getD, if_neg (by omega)]
          · rfl
        have hc2lo : ∀ j, j < i → c2.getD j false = c.getD j false := by
          intro j hj
          rw [hc2]
          split
          · rw [setRange_getD, if_neg (by omega)]
          · rfl
        have hc2mid : ∀ j, i ≤ j → j < findRunEnd false b i →
            c2.getD j false = gapCond b mg i (findRunEnd false b i) := by
          intro j hj1 hj2
          rw [hc2]
          split
          case isTrue h =>
            rw [setRange_getD, if_pos ⟨hj1, by omega, by omega⟩, h]
          case isFalse h =>
            rw [hpt j hj1, findRunEnd_getD false hj1 hj2]
            simp only [Bool.not_eq_true] at h
            exact h.symm
        have hdrop2 : c2.drop (findRunEnd false b i) = b.drop (findRunEnd false b i) := by
          apply drop_eq_of_getD false hc2len
          intro j hj
          rw [hc2out j hj, hpt j (by omega)]
        have hmono2 : ∀ j, b.getD j false = true → c2.getD j false = true := by
          intro j hbj
          rw [hc2]
          split
          · rw [setRange_getD]
            split
            · rfl
            · exact hmono j hbj
          · exact hmono j hbj
        have hprev2' : findRunEnd false b i = 0 ∨
            b.getD (findRunEnd false b i - 1) false = true ∨
            b.length ≤ findRunEnd false b i ∨
            b.getD (findRunEnd false b i) false = true := by
          by_cases hgl : findRunEnd false b i < b.length
          · have h2 := findRunEnd_stop false hgl
            right; right; right
            simpa using h2
          · right; right; left
            omega
        obtain ⟨ih1, ih2, ih3⟩ := ih c2 (findRunEnd false b i) hc2len (by omega)
          hdrop2 hmono2 hprev2'
        rw [hstep]
        refine ⟨?_, ?_, ih3⟩
        · intro j hij
          rcases Nat.lt_or_ge j (findRunEnd false b i) with hjge | hjge
          · rw [ih2 j hjge, hc2mid j hij hjge,
              gapFillVal_eq_in_gap hi hbif hprev2 hij hjge]
          · exact ih1 j hjge
        · intro j hj
          rw [ih2 j (by omega), hc2lo j hj]

lemma fillGaps_getD (mg : Nat) (b : List Bool) (j : Nat) :
    (fillGaps mg b).getD j false = gapFillVal b mg j :=
  (fillLoopF_char mg b b.length b 0 rfl (by omega) rfl (fun _ h => h)
    (Or.inl rfl)).1 j (Nat.zero_le j)

lemma fillGaps_length (mg : Nat) (b : List Bool) :
    (fillGaps mg b).length = b.length :=
  (fillLoopF_char mg b b.length b 0 rfl (by omega) rfl (fun _ h => h)
    (Or.inl rfl)).2.2

/-!
## The run-length decomposition agrees with the loop
-/

lemma countRun_eq_of (v : Bool) :
    ∀ (l : List Bool) (k : Nat), k ≤ l.length →
      (∀ m, m < k → l.getD m false = v) →
      (k = l.length ∨ l.getD k false ≠ v) → countRun v l = k
  | l, 0, _, _, hstop => by
    cases l with
    | nil => rfl
    | cons x xs =>
      rcases hstop with h | h
      · simp at h
      · rw [List.getD_cons_zero] at h
        rw [countRun, if_neg (by simpa using h)]
  | [], k + 1, hk, _, _ => by simp at hk
  | x :: xs, k + 1, hk, hall, hstop => by
    have hx : x = v := by
      have := hall 0 (by omega)
      rwa [List.getD_cons_zero] at this
    rw [countRun, if_pos (by simp [hx]), countRun_eq_of v xs k (by simpa using hk)
      (fun m hm => by
        have := hall (m + 1) (by omega)
        rwa [List.getD_cons_succ] at this)
      (by
        rcases hstop with h | h
        · left
          simpa using h
        · right
          rwa [List.getD_cons_succ] at h)]

lemma findRunEnd_eq_of {v : Bool} {b : List Bool} {s e : Nat} (hse : s ≤ e)
    (he : e ≤ b.length) (hvals : ∀ k, k < e → s ≤ k → b.getD k false = v)
    (hstop : e = b.length ∨ b.getD e false = !v) :
    findRunEnd v b s = e := by
  have hc : countRun v (b.drop s) = e - s := by
    apply countRun_eq_of
    · rw [List.length_drop]
      omega
    · intro m hm
      rw [List.getD_eq_getElem?_getD, List.getElem?_drop, ← List.getD_eq_getElem?_getD]
      exact hvals (s + m) (by omega) (by omega)
    · rcases hstop with h | h
      · left
        rw [List.length_drop]
        omega
      · right
        rw [List.getD_eq_getElem?_getD, List.getElem?_drop,
          ← List.getD_eq_getElem?_getD, show s + (e - s) = e by omega, h]
        cases v <;> simp
  rw [findRunEnd, hc]
  omega

lemma gapCond_eq_true_iff {b : List Bool} {mg s e : Nat} :
    gapCond b mg s e = true ↔
      0 < s ∧ b.getD (s - 1) false = true ∧ e < b.length ∧
        b.getD e false = true ∧ e - s < mg := by
  simp [gapCond, Bool.and_eq_true, decide_eq_true_eq, and_assoc]

lemma fillGapsSpecFrom_char (b : List Bool) (mg : Nat) :
    ∀ (fuel i : Nat) (c : List Bool),
      c.length = b.length →
      b.length ≤ fuel + i →
      (i = 0 ∨ b.length ≤ i ∨ b.getD (i - 1) false ≠ b.getD i false) →
      (∀ j, j < i → (fillGapsSpecFrom b mg fuel i c).getD j false = c.getD j false) ∧
      (∀ j, i ≤ j → (fillGapsSpecFrom b mg fuel i c).getD j false =
        ((!(b.getD j false) && gapFillVal b mg j) || c.getD j false)) ∧
      (fillGapsSpecFrom b mg fuel i c).length = b.length := by
  intro fuel
  induction fuel with
  | zero =>
    intro i c hlen hfuel _hstart
    refine ⟨fun j _ => rfl, ?_, hlen⟩
    intro j hij
    show c.getD j false =
      ((!(b.getD j false) && gapFillVal b mg j) || c.getD j false)
    rw [getD_false_of_le (show b.length ≤ j by omega),
      gapFillVal_of_le mg (show b.length ≤ j by omega)]
    simp
  | succ fuel ih =>
    intro i c hlen hfuel hstart
    by_cases hi : i < b.length
    case neg =>
      have hnil : fillGapsSpecFrom b mg (fuel + 1) i c = c := by
        rw [fillGapsSpecFrom, runsFrom, if_neg hi]
        rfl
      rw [hnil]
      refine ⟨fun j _ => rfl, ?_, hlen⟩
      intro j hij
      rw [getD_false_of_le (show b.length ≤ j by omega),
        gapFillVal_of_le mg (show b.length ≤ j by omega)]
      simp
    case pos =>
      have hie : i < findRunEnd (b.getD i false) b i := findRunEnd_lt hi rfl
      have hee : findRunEnd (b.getD i false) b i ≤ b.length :=
        findRunEnd_le_length _ (le_of_lt hi)
      have hvals : ∀ k, i ≤ k → k < findRunEnd (b.getD i false) b i →
          b.getD k false = b.getD i false :=
        fun k h1 h2 => findRunEnd_getD _ h1 h2
      have hstart2 : i = 0 ∨ b.getD (i - 1) false = true ∨
          b.getD (i - 1) false ≠ b.getD i false := by
        rcases hstart with h | h | h
        · exact Or.inl h
        · omega
        · exact Or.inr (Or.inr h)
      have hstep : fillGapsSpecFrom b mg (fuel + 1) i c =
          fillGapsSpecFrom b mg fuel (findRunEnd (b.getD i false) b i)
            (if !(b.getD i false) && gapCond b mg i (findRunEnd (b.getD i false) b i)
             then setRange true c i (findRunEnd (b.getD i false) b i - i) else c) := by
        rw [fillGapsSpecFrom, runsFrom, if_pos hi]
        rfl
      set e := findRunEnd (b.getD i false) b i with he_def
      set c2 := (if !(b.getD i false) && gapCond b mg i e
        then setRange true c i (e - i) else c) with hc2
      have hc2len : c2.length = b.length := by
        rw [hc2]
        split
        · rw [setRange_length]
          exact hlen
        · exact hlen
      have hc2lo : ∀ j, j < i → c2.getD j false = c.getD j false := by
        intro j hj
        rw [hc2]
        split
        · rw [setRange_getD, if_neg (by omega)]
        · rfl
      have hc2hi : ∀ j, e ≤ j → c2.getD j false = c.getD j false := by
        intro j hj
        rw [hc2]
        split
        · rw [setRange_getD, if_neg (by omega)]
        · rfl
      have hstart' : e = 0 ∨ b.length ≤ e ∨ b.getD (e - 1) false ≠ b.getD e false := by
        by_cases hel : e < b.length
        · right; right
          have h1 : b.getD (e - 1) false = b.getD i false :=
            hvals (e - 1) (by omega) (by omega)
          have h2 : b.getD e false = !(b.getD i false) := by
            rw [he_def]
            exact findRunEnd_stop _ (he_def ▸ hel)
          rw [h1, h2]
          cases b.getD i false <;> simp
        · right; left
          omega
      obtain ⟨ih1, ih2, ih3⟩ := ih e c2 hc2len (by omega) hstart'
      rw [hstep]
      refine ⟨?_, ?_, ih3⟩
      · intro j hj
        rw [ih1 j (by omega), hc2lo j hj]
      · intro j hij
        rcases Nat.lt_or_ge j e with hje | hje
        · rw [ih1 j hje]
          have hbj : b.getD j false = b.getD i false := hvals j hij hje
          cases hv : b.getD i false
          case true =>
            have hcc : c2 = c := by
              rw [hc2, if_neg (by rw [hv]; simp)]
            rw [hcc, hbj, hv, gapFillVal_of_true mg (hbj.trans hv)]
            simp
          case false =>
            have he2 : e = findRunEnd false b i := by
              rw [he_def, hv]
            have hfv : gapFillVal b mg j = gapCond b mg i e := by
              rw [he2]
              exact gapFillVal_eq_in_gap hi hv
                (by
                  rcases hstart2 with h | h | h
                  · exact Or.inl h
                  · exact Or.inr h
                  · right
                    rw [hv] at h
                    cases hx : b.getD (i - 1) false
                    · rw [hx] at h
                      exact absurd rfl h
                    · rfl)
                hij (by rw [← he2]; exact hje)
            rw [hbj, hv, hfv, hc2, hv]
            cases hcond : gapCond b mg i e
            · rw [if_neg (by simp)]
              simp
            · rw [if_pos (by simp)]
              rw [setRange_getD, if_pos ⟨hij, by omega, by omega⟩]
              simp
        · rw [ih2 j hje, hc2hi j hje]

lemma fillGapsSpec_getD (b : List Bool) (mg : Nat) (j : Nat) :
    (fillGapsSpec b mg).getD j false = gapFillVal b mg j := by
  have h := (fillGapsSpecFrom_char b mg b.length 0 b rfl (by omega) (Or.inl rfl)).2.1
    j (Nat.zero_le j)
  rw [fillGapsSpec, h]
  cases hb : b.getD j false
  · simp
  · rw [gapFillVal_of_true mg hb]
    simp

lemma fillGapsSpec_length (b : List Bool) (mg : Nat) :
    (fillGapsSpec b mg).length = b.length :=
  (fillGapsSpecFrom_char b mg b.length 0 b rfl (by omega) (Or.inl rfl)).2.2

/-- C5: the gap-filling pass of the smoother, implemented in the source as
an in-place index-mutation loop, computes exactly the array obtained by
first deciding every fill (gap boundaries, positive neighbors, gap length)
from the immutable original binarization and then applying all fills: no
fill decision depends on frames already filled within the same call. -/
theorem gap_fill_refines_immutable_decisions (scores : List ℚ) (threshold : ℚ)
    (min_gap_frames : Nat) :
    fillGaps min_gap_frames (binarize threshold scores) =
      fillGapsSpec (binarize threshold scores) min_gap_frames := by
  apply list_ext_getD false
  · rw [fillGaps_length, fillGapsSpec_length]
  · intro j
    rw [fillGaps_getD, fillGapsSpec_getD]

/-- C2: a maximal zero run `[s, e)` of the binarization (`binary[i] = 1` iff
`threshold ≤ scores[i]`) is set to all-ones by the gap-filling pass exactly
when it has a one-frame immediately on both sides and its length is
strictly below `min_gap_frames`; otherwise (length at least
`min_gap_frames`, or the run touches either end of the series) the run is
left all-zero. -/
theorem gap_fill_run_boundary (scores : List ℚ) (threshold : ℚ) (mg s e : Nat)
    (hse : s < e) (he : e ≤ (binarize threshold scores).length)
    (hzero : ∀ j, j < e → s ≤ j → (binarize threshold scores).getD j false = false)
    (hleft : s = 0 ∨ (binarize threshold scores).getD (s - 1) false = true)
    (hright : e = (binarize threshold scores).length ∨
      (binarize threshold scores).getD e false = true) :
    ((0 < s ∧ (binarize threshold scores).getD (s - 1) false = true ∧
        e < (binarize threshold scores).length ∧
        (binarize threshold scores).getD e false = true ∧ e - s < mg) →
      ∀ j, j < e → s ≤ j →
        (fillGaps mg (binarize threshold scores)).getD j false = true) ∧
    (¬(0 < s ∧ (binarize threshold scores).getD (s - 1) false = true ∧
        e < (binarize threshold scores).length ∧
        (binarize threshold scores).getD e false = true ∧ e - s < mg) →
      ∀ j, j < e → s ≤ j →
        (fillGaps mg (binarize threshold scores)).getD j false = false) := by
  have hfre : findRunEnd false (binarize threshold scores) s = e := by
    apply findRunEnd_eq_of (le_of_lt hse) he (fun k h1 h2 => hzero k h1 h2)
    rcases hright with h | h
    · exact Or.inl h
    · right
      rw [h]
      rfl
  have hval : ∀ j, j < e → s ≤ j →
      (fillGaps mg (binarize threshold scores)).getD j false =
        gapCond (binarize threshold scores) mg s e := by
    intro j hj1 hj2
    rw [fillGaps_getD, ← hfre]
    exact gapFillVal_eq_in_gap (by omega) (hzero s hse le_rfl) hleft hj2
      (by rw [hfre]; exact hj1)
  constructor
  · intro hcond j hj1 hj2
    rw [hval j hj1 hj2]
    exact gapCond_eq_true_iff.mpr hcond
  · intro hcond j hj1 hj2
    rw [hval j hj1 hj2]
    cases hc : gapCond (binarize threshold scores) mg s e
    · rfl
    · exact absurd (gapCond_eq_true_iff.mp hc) hcond

/-- C2 witness: with threshold `1/2` and `min_gap_frames = 3`, the interior
zero run `[1, 3)` of the binarization of `[3/5, 2/5, 2/5, 3/5]` has ones on
both sides and length `2 < 3`, so both its frames are filled to one. -/
theorem gap_fill_run_boundary_witness :
    (fillGaps 3 (binarize (mkRat 1 2)
      [mkRat 3 5, mkRat 2 5, mkRat 2 5, mkRat 3 5])).getD 1 false = true := by
  have h := (gap_fill_run_boundary [mkRat 3 5, mkRat 2 5, mkRat 2 5, mkRat 3 5]
    (mkRat 1 2) 3 1 3 (by decide) (by decide) (by decide) (by decide) (by decide)).1
  exact h (by decide) 1 (by decide) (by decide)

/-!
## Positive-segment and spike-removal lemmas
-/

lemma getD_default_of_le {l : List α} {d : α} {j : Nat} (h : l.length ≤ j) :
    l.getD j d = d := by
  rw [List.getD_eq_getElem?_getD, List.getElem?_eq_none h]
  rfl

lemma posSegmentsF_nil {b : List Bool} :
    ∀ (fuel i : Nat), b.length ≤ i → posSegmentsF fuel b i = []
  | 0, _, _ => rfl
  | fuel + 1, i, h => by rw [posSegmentsF, if_neg (by omega)]

lemma posSegmentsF_sound {b : List Bool} :
    ∀ (fuel i : Nat), ∀ p, p ∈ posSegmentsF fuel b i →
      i ≤ p.1 ∧ p.1 < p.2 ∧ p.2 ≤ b.length ∧
      (∀ k, p.1 ≤ k → k < p.2 → b.getD k false = true) ∧
      (p.2 = b.length ∨ b.getD p.2 false = false)
  | 0, i, p, hp => absurd hp (List.not_mem_nil p)
  | fuel + 1, i, p, hp => by
    rw [posSegmentsF] at hp
    by_cases hi : i < b.length
    case neg =>
      rw [if_neg hi] at hp
      exact absurd hp (List.not_mem_nil p)
    case pos =>
      rw [if_pos hi] at hp
      by_cases hb : b.getD i false = true
      case pos =>
        rw [if_pos hb] at hp
        rcases List.mem_cons.mp hp with heq | hmem
        · subst heq
          refine ⟨le_rfl, findRunEnd_lt hi hb, findRunEnd_le_length true (le_of_lt hi),
            fun k h1 h2 => findRunEnd_getD true h1 h2, ?_⟩
          by_cases hel : findRunEnd true b i < b.length
          · right
            have := findRunEnd_stop true hel
            simpa using this
          · left
            have := findRunEnd_le_length true (le_of_lt hi)
            omega
        · have h2 := posSegmentsF_sound fuel (findRunEnd true b i) p hmem
          have h3 := findRunEnd_lt hi hb
          exact ⟨by omega, h2.2⟩
      case neg =>
        rw [if_neg hb] at hp
        have h2 := posSegmentsF_sound fuel (i + 1) p hp
        exact ⟨by omega, h2.2⟩

lemma posSegmentsF_complete {b : List Bool} :
    ∀ (fuel i : Nat), b.length ≤ fuel + i →
      ∀ j, i ≤ j → j < b.length → b.getD j false = true →
        ∃ p, p ∈ posSegmentsF fuel b i ∧ p.1 ≤ j ∧ j < p.2
  | 0, i, hfuel, j, h1, h2, _ => by omega
  | fuel + 1, i, hfuel, j, h1, h2, h3 => by
    have hi : i < b.length := by omega
    rw [posSegmentsF, if_pos hi]
    by_cases hb : b.getD i false = true
    case pos =>
      rw [if_pos hb]
      by_cases hje : j < findRunEnd true b i
      · exact ⟨(i, findRunEnd true b i), List.mem_cons_self _ _, h1, hje⟩
      · have he := findRunEnd_lt hi hb
        obtain ⟨p, hp, hp1, hp2⟩ := posSegmentsF_complete fuel (findRunEnd true b i)
          (by omega) j (by omega) h2 h3
        exact ⟨p, List.mem_cons_of_mem _ hp, hp1, hp2⟩
    case neg =>
      rw [if_neg hb]
      have hij : i ≠ j := by
        intro h
        rw [h] at hb
        exact hb h3
      exact posSegmentsF_complete fuel (i + 1) (by omega) j (by omega) h2 h3

lemma posSegmentsF_unique {b : List Bool} :
    ∀ (fuel i : Nat), ∀ p q, p ∈ posSegmentsF fuel b i → q ∈ posSegmentsF fuel b i →
      ∀ j, p.1 ≤ j → j < p.2 → q.1 ≤ j → j < q.2 → p = q
  | 0, i, p, q, hp, _, _, _, _, _, _ => absurd hp (List.not_mem_nil p)
  | fuel + 1, i, p, q, hp, hq, j, hp1, hp2, hq1, hq2 => by
    rw [posSegmentsF] at hp hq
    by_cases hi : i < b.length
    case neg =>
      rw [if_neg hi] at hp
      exact absurd hp (List.not_mem_nil p)
    case pos =>
      rw [if_pos hi] at hp hq
      by_cases hb : b.getD i false = true
      case pos =>
        rw [if_pos hb] at hp hq
        rcases List.mem_cons.mp hp with hep | hmp <;>
          rcases List.mem_cons.mp hq with heq | hmq
        · rw [hep, heq]
        · exfalso
          have hs := posSegmentsF_sound fuel (findRunEnd true b i) q hmq
          rw [hep] at hp2
          omega
        · exfalso
          have hs := posSegmentsF_sound fuel (findRunEnd true b i) p hmp
          rw [heq] at hq2
          omega
        · exact posSegmentsF_unique fuel (findRunEnd true b i) p q hmp hmq j hp1 hp2 hq1 hq2
      case neg =>
        rw [if_neg hb] at hp hq
        exact posSegmentsF_unique fuel (i + 1) p q hp hq j hp1 hp2 hq1 hq2

lemma spikeFoldF_length (msf : Nat) :
    ∀ (segs : List (Nat × Nat)) (c : List Bool),
      (spikeFoldF msf segs c).length = c.length
  | [], _ => rfl
  | p :: segs, c => by
    rw [spikeFoldF, List.foldl_cons, ← spikeFoldF]
    rw [spikeFoldF_length msf segs]
    split
    · rw [setRange_length]
    · rfl

lemma spikeFoldF_false (msf : Nat) :
    ∀ (segs : List (Nat × Nat)) (c : List Bool) (j : Nat),
      c.getD j false = false → (spikeFoldF msf segs c).getD j false = false
  | [], _, _, h => h
  | p :: segs, c, j, h => by
    rw [spikeFoldF, List.foldl_cons, ← spikeFoldF]
    apply spikeFoldF_false msf segs
    split
    · rw [setRange_getD]
      split
      · rfl
      · exact h
    · exact h

lemma spikeFoldF_untouched (msf : Nat) :
    ∀ (segs : List (Nat × Nat)) (c : List Bool) (j : Nat),
      (∀ p, p ∈ segs → ¬(p.1 ≤ j ∧ j < p.2 ∧ p.2 - p.1 < msf)) →
      (spikeFoldF msf segs c).getD j false = c.getD j false
  | [], _, _, _ => rfl
  | p :: segs, c, j, h => by
    rw [spikeFoldF, List.foldl_cons, ← spikeFoldF]
    rw [spikeFoldF_untouched msf segs _ j
      (fun q hq => h q (List.mem_cons_of_mem _ hq))]
    split
    case isTrue hsmall =>
      rw [setRange_getD, if_neg (by
        intro hcon
        exact h p (List.mem_cons_self _ _) ⟨hcon.1, by omega, hsmall⟩)]
    case isFalse => rfl

lemma spikeFoldF_zeroes (msf : Nat) :
    ∀ (segs : List (Nat × Nat)) (c : List Bool) (j : Nat) (p : Nat × Nat),
      p ∈ segs → p.1 ≤ j → j < p.2 → p.2 - p.1 < msf → j < c.length →
      (spikeFoldF msf segs c).getD j false = false
  | [], _, _, p, hp, _, _, _, _ => absurd hp (List.not_mem_nil p)
  | q :: segs, c, j, p, hp, h1, h2, h3, h4 => by
    rw [spikeFoldF, List.foldl_cons, ← spikeFoldF]
    rcases List.mem_cons.mp hp with heq | hmem
    · subst heq
      apply spikeFoldF_false msf segs
      rw [if_pos h3, setRange_getD, if_pos ⟨h1, by omega, h4⟩]
    · apply spikeFoldF_zeroes msf segs _ j p hmem h1 h2 h3
      split
      · rw [setRange_length]
        exact h4
      · exact h4

lemma spikeRemove_length (msf mef : Nat) (b : List Bool) :
    (spikeRemove msf mef b).length = b.length := by
  rw [spikeRemove]
  split
  · rw [spikeFoldF_length]
  · rfl

lemma reconstruct_length (scores : List ℚ) (threshold : ℚ) (b : List Bool) :
    (reconstruct scores threshold b).length = min scores.length b.length := by
  rw [reconstruct, List.length_map, List.length_zip]

lemma reconstruct_getD (scores : List ℚ) (threshold : ℚ) (b : List Bool)
    (hlen : b.length = scores.length) {i : Nat} (hi : i < scores.length) :
    (reconstruct scores threshold b).getD i 0 =
      if b.getD i false = true then max (scores.getD i 0) threshold
      else min (scores.getD i 0) (threshold * (1 / 2)) := by
  have hiz : i < (scores.zip b).length := by
    rw [List.length_zip]
    omega
  have him : i < ((scores.zip b).map fun p =>
      if p.2 then max p.1 threshold else min p.1 (threshold * (1 / 2))).length := by
    rw [List.length_map]
    exact hiz
  rw [reconstruct, List.getD_eq_getElem _ _ him, List.getElem_map, List.getElem_zip,
    List.getD_eq_getElem _ _ hi, List.getD_eq_getElem _ _ (show i < b.length by omega)]

/-- C3: in the smoother, spike removal operates on the maximal one-runs of
the binary series as it stands after gap filling.  Exactly when the sum of
all positive-segment lengths is strictly greater than `min_event_frames`,
every positive segment strictly shorter than `min_spike_frames` is zeroed,
every other frame keeping its value; when that total is at most
`min_event_frames`, the series is returned untouched. -/
theorem spike_removal_characterization (scores : List ℚ) (threshold : ℚ)
    (mg msf mef : Nat) (gb : List Bool)
    (_hgb : gb = fillGaps mg (binarize threshold scores)) :
    (((posSegments gb).map fun p => p.2 - p.1).sum ≤ mef →
      spikeRemove msf mef gb = gb) ∧
    (mef < ((posSegments gb).map fun p => p.2 - p.1).sum →
      (∀ p, p ∈ posSegments gb → p.2 - p.1 < msf →
        ∀ j, j < p.2 → p.1 ≤ j → (spikeRemove msf mef gb).getD j false = false) ∧
      (∀ p, p ∈ posSegments gb → msf ≤ p.2 - p.1 →
        ∀ j, j < p.2 → p.1 ≤ j → (spikeRemove msf mef gb).getD j false = true) ∧
      (∀ j, j < gb.length → gb.getD j false = false →
        (spikeRemove msf mef gb).getD j false = false)) := by
  constructor
  · intro h
    simp only [spikeRemove]
    rw [if_neg (not_lt.mpr h)]
  · intro h
    have hopen : spikeRemove msf mef gb = spikeFoldF msf (posSegments gb) gb := by
      simp only [spikeRemove]
      rw [if_pos h]
    refine ⟨?_, ?_, ?_⟩
    · intro p hp hsmall j hj2 hj1
      rw [hopen]
      have hs := posSegmentsF_sound gb.length 0 p (by rwa [posSegments] at hp)
      exact spikeFoldF_zeroes msf _ gb j p hp hj1 hj2 hsmall (by omega)
    · intro p hp hbig j hj2 hj1
      have hs := posSegmentsF_sound gb.length 0 p (by rwa [posSegments] at hp)
      rw [hopen, spikeFoldF_untouched msf _ gb j ?_]
      · exact hs.2.2.2.1 j hj1 hj2
      · intro q hq hcon
        have heq : q = p := posSegmentsF_unique gb.length 0 q p
          (by rwa [posSegments] at hq) (by rwa [posSegments] at hp)
          j hcon.1 hcon.2.1 hj1 hj2
        rw [heq] at hcon
        omega
    · intro j _hjlen hjfalse
      rw [hopen, spikeFoldF_untouched msf _ gb j ?_]
      · exact hjfalse
      · intro q hq hcon
        have hs := posSegmentsF_sound gb.length 0 q (by rwa [posSegments] at hq)
        have := hs.2.2.2.1 j hcon.1 hcon.2.1
        rw [this] at hjfalse
        exact absurd hjfalse (by simp)

/-- C3 witness: after gap filling, `[3/5, 2/5, 3/5, 3/5]` at threshold `1/2`
with `min_gap_frames = 1` stays `[1,0,1,1]`; total positive mass `3 > 1`
opens the gate and the isolated one-frame segment `(0, 1)` (length `1 < 2`)
is zeroed. -/
theorem spike_removal_characterization_witness :
    (spikeRemove 2 1 [true, false, true, true]).getD 0 false = false := by
  have h := (spike_removal_characterization
    [mkRat 3 5, mkRat 2 5, mkRat 3 5, mkRat 3 5] (mkRat 1 2) 1 2 1
    [true, false, true, true] (by decide)).2 (by decide)
  exact h.1 (0, 1) (by decide) (by decide) 0 (by decide) (by decide)

/-- C4: the smoothed series has the length of its input, and every frame
whose final binary state (after gap filling and spike removal) is one
carries `max(original, threshold)`, hence is at least `threshold`, while
every frame whose final state is zero carries
`min(original, threshold * 0.5)`, hence is at most `threshold * 0.5`. -/
theorem smooth_reconstruction_bounds (scores : List ℚ) (threshold : ℚ)
    (mg msf mef : Nat) :
    (postprocess_frame_scores scores threshold mg msf mef).length = scores.length ∧
    ∀ i, i < scores.length →
      ((spikeRemove msf mef (fillGaps mg (binarize threshold scores))).getD i false =
          true →
        (postprocess_frame_scores scores threshold mg msf mef).getD i 0 =
          max (scores.getD i 0) threshold ∧
        threshold ≤ (postprocess_frame_scores scores threshold mg msf mef).getD i 0) ∧
      ((spikeRemove msf mef (fillGaps mg (binarize threshold scores))).getD i false =
          false →
        (postprocess_frame_scores scores threshold mg msf mef).getD i 0 =
          min (scores.getD i 0) (threshold * (1 / 2)) ∧
        (postprocess_frame_scores scores threshold mg msf mef).getD i 0 ≤
          threshold * (1 / 2)) := by
  by_cases hn : scores.length = 0
  · constructor
    · rw [postprocess_frame_scores, if_pos hn, hn]
    · intro i hi
      omega
  · have hb2len :
        (spikeRemove msf mef (fillGaps mg (binarize threshold scores))).length =
          scores.length := by
      rw [spikeRemove_length, fillGaps_length, binarize, List.length_map]
    have hpp : postprocess_frame_scores scores threshold mg msf mef =
        reconstruct scores threshold
          (spikeRemove msf mef (fillGaps mg (binarize threshold scores))) := by
      rw [postprocess_frame_scores, if_neg hn]
    constructor
    · rw [hpp, reconstruct_length, hb2len, min_self]
    · intro i hi
      constructor
      · intro htrue
        rw [hpp, reconstruct_getD _ _ _ hb2len hi, if_pos htrue]
        exact ⟨rfl, le_max_right _ _⟩
      · intro hfalse
        rw [hpp, reconstruct_getD _ _ _ hb2len hi,
          if_neg (by rw [hfalse]; exact Bool.false_ne_true)]
        exact ⟨rfl, min_le_right _ _⟩

/-- C4 witness: with scores `[3/5]` and threshold `1/2` the single frame is
positive after both passes, so the smoothed value is at least the
threshold. -/
theorem smooth_reconstruction_bounds_witness :
    mkRat 1 2 ≤ (postprocess_frame_scores [mkRat 3 5] (mkRat 1 2) 10 2 10).getD 0 0 := by
  have h := ((smooth_reconstruction_bounds [mkRat 3 5] (mkRat 1 2) 10 2 10).2 0
    (by decide)).1
  exact (h (by decide)).2

/-!
## Edge behavior of the smoother (C6)
-/

lemma binarize_length (threshold : ℚ) (scores : List ℚ) :
    (binarize threshold scores).length = scores.length := by
  rw [binarize, List.length_map]

lemma binarize_getD (threshold : ℚ) (scores : List ℚ) {j : Nat}
    (hj : j < scores.length) :
    (binarize threshold scores).getD j false = decide (threshold ≤ scores.getD j 0) := by
  have hj' : j < (binarize threshold scores).length := by
    rw [binarize_length]
    exact hj
  rw [binarize] at hj' ⊢
  rw [List.getD_eq_getElem _ _ hj', List.getElem_map, List.getD_eq_getElem _ _ hj]

lemma getD_mem_of_lt {l : List ℚ} {j : Nat} (hj : j < l.length) :
    l.getD j 0 ∈ l := by
  rw [List.getD_eq_getElem _ _ hj]
  exact List.getElem_mem hj

lemma fillGaps_all_true {b : List Bool} (mg : Nat)
    (hall : ∀ j, j < b.length → b.getD j false = true) : fillGaps mg b = b := by
  apply list_ext_getD false (fillGaps_length mg b)
  intro j
  rw [fillGaps_getD]
  by_cases hj : j < b.length
  · rw [gapFillVal_of_true mg (hall j hj), hall j hj]
  · rw [gapFillVal_of_le mg (by omega), getD_false_of_le (by omega)]

lemma fillGaps_all_false {b : List Bool} (mg : Nat)
    (hall : ∀ j, j < b.length → b.getD j false = false) : fillGaps mg b = b := by
  apply list_ext_getD false (fillGaps_length mg b)
  intro j
  rw [fillGaps_getD]
  by_cases hj : j < b.length
  · rw [hall j hj, gapFillVal, if_neg (by rw [hall j hj]; exact Bool.false_ne_true)]
    cases hg : gapCond b mg (runStart b j) (findRunEnd false b j)
    · rfl
    · exfalso
      obtain ⟨-, -, he, hbe, -⟩ := gapCond_eq_true_iff.mp hg
      rw [hall _ he] at hbe
      exact Bool.false_ne_true hbe
  · rw [gapFillVal_of_le mg (by omega), getD_false_of_le (by omega)]

lemma posSegments_all_true {b : List Bool} (hn : 0 < b.length)
    (hall : ∀ j, j < b.length → b.getD j false = true) :
    posSegments b = [(0, b.length)] := by
  obtain ⟨m, hm⟩ : ∃ m, b.length = m + 1 := ⟨b.length - 1, by omega⟩
  rw [posSegments, hm, posSegmentsF, if_pos (by omega), if_pos (hall 0 (by omega)),
    findRunEnd_eq_of (Nat.zero_le _) le_rfl (fun k h1 _ => hall k h1) (Or.inl rfl),
    posSegmentsF_nil m b.length le_rfl, hm]

lemma posSegments_all_false {b : List Bool}
    (hall : ∀ j, j < b.length → b.getD j false = false) : posSegments b = [] := by
  rw [posSegments]
  suffices h : ∀ (fuel i : Nat), posSegmentsF fuel b i = [] from h b.length 0
  intro fuel
  induction fuel with
  | zero => intro i; rfl
  | succ fuel ih =>
    intro i
    rw [posSegmentsF]
    by_cases hi : i < b.length
    · rw [if_pos hi, if_neg (by rw [hall i hi]; exact Bool.false_ne_true)]
      exact ih (i + 1)
    · rw [if_neg hi]

/-- C6 counterexample: `[2/5]` binarizes to all zeros at threshold `1/2`,
yet the smoother does not return it unchanged: the zero frame is clamped to
`min(2/5, 1/4) = 1/4`. -/
theorem smooth_shortcircuit_counterexample :
    postprocess_frame_scores [mkRat 2 5] (mkRat 1 2) 10 2 10 ≠ [mkRat 2 5] := by
  have h1 : binarize (mkRat 1 2) [mkRat 2 5] = [false] := by decide
  have h2 : spikeRemove 2 10 (fillGaps 10 [false]) = [false] := by decide
  have h3 : postprocess_frame_scores [mkRat 2 5] (mkRat 1 2) 10 2 10 =
      [min (mkRat 2 5) (mkRat 1 2 * (1 / 2))] := by
    rw [postprocess_frame_scores, if_neg (by decide), h1, h2]
    rfl
  rw [h3]
  intro hcon
  have h4 : min (mkRat 2 5) (mkRat 1 2 * (1 / 2)) = mkRat 2 5 :=
    (List.cons.injEq _ _ _ _).mp hcon |>.1
  rw [min_eq_left_iff] at h4
  norm_num [Rat.mkRat_eq_div] at h4

/-- C6 amended: the smoother returns the empty series unchanged; a series
that binarizes to all ones is returned unchanged provided its length is at
most `min_event_frames` or at least `min_spike_frames` (otherwise spike
removal may erase the single segment); a series that binarizes to all zeros
has every score clamped to `min(score, threshold * 0.5)`, so it is returned
unchanged exactly when every score is already at most `threshold * 0.5`. -/
theorem smooth_shortcircuit_amended (scores : List ℚ) (threshold : ℚ)
    (mg msf mef : Nat) :
    postprocess_frame_scores [] threshold mg msf mef = [] ∧
    ((∀ s, s ∈ scores → threshold ≤ s) →
      (scores.length ≤ mef ∨ msf ≤ scores.length) →
      postprocess_frame_scores scores threshold mg msf mef = scores) ∧
    ((∀ s, s ∈ scores → s < threshold) →
      (postprocess_frame_scores scores threshold mg msf mef = scores ↔
        ∀ s, s ∈ scores → s ≤ threshold * (1 / 2))) := by
  refine ⟨rfl, ?_, ?_⟩
  · intro hge hlen
    by_cases hsc : scores.length = 0
    · rw [postprocess_frame_scores, if_pos hsc]
    · have hball : ∀ j, j < (binarize threshold scores).length →
          (binarize threshold scores).getD j false = true := by
        intro j hj
        rw [binarize_length] at hj
        rw [binarize_getD threshold scores hj]
        exact decide_eq_true (hge _ (getD_mem_of_lt hj))
      have hfg : fillGaps mg (binarize threshold scores) = binarize threshold scores :=
        fillGaps_all_true mg hball
      have hsr : spikeRemove msf mef (binarize threshold scores) =
          binarize threshold scores := by
        have hsegs := posSegments_all_true
          (b := binarize threshold scores) (by rw [binarize_length]; omega) hball
        simp only [spikeRemove, hsegs, List.map_cons, List.map_nil, List.sum_cons,
          List.sum_nil]
        rw [binarize_length]
        split
        case isTrue hgate =>
          have hmsf : msf ≤ scores.length := by
            rcases hlen with h | h
            · omega
            · exact h
          rw [spikeFoldF, List.foldl_cons, List.foldl_nil,
            if_neg (by show ¬(scores.length - 0 < msf); omega)]
        case isFalse => rfl
      have hrc : reconstruct scores threshold (binarize threshold scores) = scores := by
        apply list_ext_getD (0 : ℚ)
        · rw [reconstruct_length, binarize_length, min_self]
        · intro j
          by_cases hj : j < scores.length
          · rw [reconstruct_getD _ _ _ (binarize_length threshold scores) hj,
              if_pos (hball j (by rw [binarize_length]; omega)),
              max_eq_left (hge _ (getD_mem_of_lt hj))]
          · rw [getD_default_of_le (by rw [reconstruct_length, binarize_length]; omega),
              getD_default_of_le (by omega)]
      rw [postprocess_frame_scores, if_neg hsc, hfg, hsr, hrc]
  · intro hlt
    by_cases hsc : scores.length = 0
    · rw [postprocess_frame_scores, if_pos hsc]
      have hempty : scores = [] := List.length_eq_zero.mp hsc
      subst hempty
      simp
    · have hball : ∀ j, j < (binarize threshold scores).length →
          (binarize threshold scores).getD j false = false := by
        intro j hj
        rw [binarize_length] at hj
        rw [binarize_getD threshold scores hj]
        exact decide_eq_false (not_le.mpr (hlt _ (getD_mem_of_lt hj)))
      have hfg : fillGaps mg (binarize threshold scores) = binarize threshold scores :=
        fillGaps_all_false mg hball
      have hsr : spikeRemove msf mef (binarize threshold scores) =
          binarize threshold scores := by
        simp only [spikeRemove, posSegments_all_false hball, List.map_nil,
          List.sum_nil]
        rw [if_neg (Nat.not_lt_zero mef)]
      have hpp : postprocess_frame_scores scores threshold mg msf mef =
          reconstruct scores threshold (binarize threshold scores) := by
        rw [postprocess_frame_scores, if_neg hsc, hfg, hsr]
      rw [hpp]
      constructor
      · intro heq s hs
        obtain ⟨j, hj, rfl⟩ := List.mem_iff_getElem.mp hs
        have hgd := congrArg (fun l => l.getD j 0) heq
        simp only at hgd
        rw [reconstruct_getD _ _ _ (binarize_length threshold scores) hj,
          if_neg (by rw [hball j (by rw [binarize_length]; omega)]
                     exact Bool.false_ne_true)] at hgd
        rw [← List.getD_eq_getElem _ _ hj]
        exact min_eq_left_iff.mp hgd
      · intro hle
        apply list_ext_getD (0 : ℚ)
        · rw [reconstruct_length, binarize_length, min_self]
        · intro j
          by_cases hj : j < scores.length
          · rw [reconstruct_getD _ _ _ (binarize_length threshold scores) hj,
              if_neg (by rw [hball j (by rw [binarize_length]; omega)]
                         exact Bool.false_ne_true),
              min_eq_left (hle _ (getD_mem_of_lt hj))]
          · rw [getD_default_of_le (by rw [reconstruct_length, binarize_length]; omega),
              getD_default_of_le (by omega)]

/-- C6 witness: a series above threshold everywhere is returned unchanged. -/
theorem smooth_shortcircuit_amended_witness :
    postprocess_frame_scores [mkRat 3 5, mkRat 4 5] (mkRat 1 2) 10 2 10 =
      [mkRat 3 5, mkRat 4 5] :=
  (smooth_shortcircuit_amended [mkRat 3 5, mkRat 4 5] (mkRat 1 2) 10 2 10).2.1
    (by decide) (Or.inl (by decide))

/-!
## Error behavior of the window preparation (C7) and chunk splitting (C8)
-/

/-- C7 counterexample: on an empty buffer the code raises
`ZeroDivisionError` (from `ceil(480000 / 0)`), not an `InvalidInputError`
reported to the caller, and with a non-positive window size (`0`) it
returns successfully instead of failing. -/
theorem prepare_window_error_counterexample :
    prepare_window ([] : List ℚ) 5 = .error .zeroDivisionError ∧
    (Except.error AudioError.zeroDivisionError : Except AudioError (List ℚ)) ≠
      .error .invalidInputError ∧
    prepare_window [(1 : ℚ)] 0 = .ok [] := by
  refine ⟨rfl, ?_, rfl⟩
  intro h
  injection h with h2
  cases h2

/-- C7 amended: the window-preparation code performs no input validation:
an empty buffer (with a positive window size) makes the repeat-count
division fail with `ZeroDivisionError`; a non-empty buffer, or a window
size of zero, always succeeds.  No `InvalidInputError` exists in the
code. -/
theorem prepare_window_error_amended (buffer : List ℚ) (w : Nat) :
    (buffer = [] → 0 < w → prepare_window buffer w = .error .zeroDivisionError) ∧
    (buffer ≠ [] ∨ w = 0 → ∃ out, prepare_window buffer w = .ok out) := by
  constructor
  · intro hb hw
    subst hb
    rw [prepare_window, if_neg (by simp), if_pos (by simpa using hw),
      if_pos (show List.length ([] : List ℚ) = 0 from rfl)]
  · intro h
    rcases h with hb | hw0
    · rcases lt_trichotomy w buffer.length with h1 | h1 | h1
      · exact ⟨_, by rw [prepare_window, if_pos h1]⟩
      · exact ⟨buffer, by rw [prepare_window, if_neg (by omega), if_neg (by omega)]⟩
      · refine ⟨tileTo buffer w, ?_⟩
        rw [prepare_window, if_neg (by omega), if_pos h1,
          if_neg (by have := List.length_pos.mpr hb; omega)]
    · subst hw0
      by_cases hb : buffer.length = 0
      · exact ⟨buffer, by rw [prepare_window, if_neg (by omega), if_neg (by omega)]⟩
      · exact ⟨buffer.take 0, by rw [prepare_window, if_pos (by omega)]⟩

/-- C7 witness: concrete instance of the amended failure mode. -/
theorem prepare_window_error_amended_witness :
    prepare_window ([] : List ℚ) 5 = .error .zeroDivisionError :=
  (prepare_window_error_amended [] 5).1 rfl (by omega)

/-- C8 counterexample: with `chunk_samples = 6 > window_samples = 4`, the
single emitted window keeps all `6` samples — it is not truncated or tiled
to `window_samples`. -/
theorem split_into_windows_counterexample :
    (split_into_windows [(1 : ℚ), 2, 3, 4, 5, 6] 6 4).map (fun t => t.2.2.length) =
      [6] ∧ (6 : Nat) ≠ 4 := by
  constructor
  · rfl
  · decide

/-- C8 amended: for positive `chunk_samples` the splitting loop emits
`ceil(len / chunk_samples)` entries; entry `i` covers
`[i * chunk_samples, min(i * chunk_samples + chunk_samples, len))`, so the
chunks are consecutive, non-overlapping and in source temporal order, and
the final entry's `end_index` is the true end of the buffer.  A chunk
shorter than `window_samples` is tiled to exactly `window_samples` samples
(every output index `j` holding `chunk[j % len(chunk)]`); a chunk of at
least `window_samples` samples is emitted unchanged, so only in that case
can a window be longer than `window_samples`. -/
theorem split_into_windows_amended (buffer : List ℚ) (cs ws : Nat) (hcs : 0 < cs) :
    (split_into_windows buffer cs ws).length = (buffer.length + cs - 1) / cs ∧
    ∀ i t, (split_into_windows buffer cs ws)[i]? = some t →
      t.1 = i * cs ∧
      t.2.1 = min (i * cs + cs) buffer.length ∧
      t.1 < buffer.length ∧
      (i + 1 < (split_into_windows buffer cs ws).length → t.2.1 = (i + 1) * cs) ∧
      (i + 1 = (split_into_windows buffer cs ws).length → t.2.1 = buffer.length) ∧
      (((buffer.drop t.1).take (t.2.1 - t.1)).length < ws →
        t.2.2.length = ws ∧
        ∀ j, j < ws → t.2.2[j]? =
          ((buffer.drop t.1).take (t.2.1 - t.1))[j %
            ((buffer.drop t.1).take (t.2.1 - t.1)).length]?) ∧
      (ws ≤ ((buffer.drop t.1).take (t.2.1 - t.1)).length →
        t.2.2 = (buffer.drop t.1).take (t.2.1 - t.1)) := by
  have hlen : (split_into_windows buffer cs ws).length =
      (buffer.length + cs - 1) / cs := by
    rw [split_into_windows, List.length_map, List.length_range]
  refine ⟨hlen, ?_⟩
  intro i t ht
  have hiN : i < (buffer.length + cs - 1) / cs := by
    by_contra hcon
    rw [split_into_windows, List.getElem?_map,
      List.getElem?_eq_none (by rw [List.length_range]; omega)] at ht
    exact Option.noConfusion ht
  have ht' : t = (i * cs, min (i * cs + cs) buffer.length,
      if ((buffer.drop (i * cs)).take
            (min (i * cs + cs) buffer.length - i * cs)).length < ws
      then tileTo ((buffer.drop (i * cs)).take
            (min (i * cs + cs) buffer.length - i * cs)) ws
      else (buffer.drop (i * cs)).take
            (min (i * cs + cs) buffer.length - i * cs)) := by
    rw [split_into_windows, List.getElem?_map, List.getElem?_range hiN] at ht
    simp only [Option.map_some', Option.some.injEq] at ht
    exact ht.symm
  have e1 : t.1 = i * cs := by rw [ht']
  have e2 : t.2.1 = min (i * cs + cs) buffer.length := by rw [ht']
  have e3 : t.2.2 =
      (if ((buffer.drop (i * cs)).take
            (min (i * cs + cs) buffer.length - i * cs)).length < ws
      then tileTo ((buffer.drop (i * cs)).take
            (min (i * cs + cs) buffer.length - i * cs)) ws
      else (buffer.drop (i * cs)).take
            (min (i * cs + cs) buffer.length - i * cs)) := by
    rw [ht']
  have hdm := Nat.div_add_mod (buffer.length + cs - 1) cs
  have hmod : (buffer.length + cs - 1) % cs < cs := Nat.mod_lt _ hcs
  have hmul1 : (i + 1) * cs ≤ ((buffer.length + cs - 1) / cs) * cs :=
    Nat.mul_le_mul_right cs (by omega)
  have hsucc1 : (i + 1) * cs = i * cs + cs := Nat.succ_mul i cs
  have hNcs : ((buffer.length + cs - 1) / cs) * cs ≤ buffer.length + cs - 1 := by
    rw [Nat.mul_comm]
    omega
  have hlen_le : buffer.length ≤ ((buffer.length + cs - 1) / cs) * cs := by
    rw [Nat.mul_comm]
    omega
  have hstart_lt : i * cs < buffer.length := by omega
  have hch_len : ((buffer.drop (i * cs)).take
      (min (i * cs + cs) buffer.length - i * cs)).length =
      min (i * cs + cs) buffer.length - i * cs := by
    rw [List.length_take, List.length_drop]
    omega
  refine ⟨e1, e2, by rw [e1]; exact hstart_lt, ?_, ?_, ?_, ?_⟩
  · intro h4
    rw [hlen] at h4
    have hmul2 : (i + 2) * cs ≤ ((buffer.length + cs - 1) / cs) * cs :=
      Nat.mul_le_mul_right cs (by omega)
    have hsucc2 : (i + 2) * cs = (i + 1) * cs + cs := Nat.succ_mul (i + 1) cs
    rw [e2, min_eq_left (by omega)]
    omega
  · intro h5
    rw [hlen] at h5
    have hieq : (i + 1) * cs = ((buffer.length + cs - 1) / cs) * cs := by rw [h5]
    rw [e2, min_eq_right (by omega)]
  · intro h6
    rw [e1, e2] at h6
    rw [e3, e1, e2, if_pos h6]
    have hchpos : 0 < ((buffer.drop (i * cs)).take
        (min (i * cs + cs) buffer.length - i * cs)).length := by
      rw [hch_len]
      omega
    have hchne : (buffer.drop (i * cs)).take
        (min (i * cs + cs) buffer.length - i * cs) ≠ [] := by
      intro hc
      rw [hc] at hchpos
      simp at hchpos
    exact ⟨tileTo_length hchne ws, fun j hj => tileTo_getElem? hchne hj⟩
  · intro h7
    rw [e1, e2] at h7
    rw [e3, e1, e2, if_neg (not_lt.mpr h7)]

/-- C8 witness: splitting five samples into chunks of two yields
`ceil(5 / 2) = 3` entries. -/
theorem split_into_windows_amended_witness :
    (split_into_windows [(1 : ℚ), 2, 3, 4, 5] 2 4).length =
      ([(1 : ℚ), 2, 3, 4, 5].length + 2 - 1) / 2 :=
  (split_into_windows_amended [(1 : ℚ), 2, 3, 4, 5] 2 4 (by omega)).1

/-!
## Cross-chunk aggregation (C9)
-/

lemma mapM_dictGet_ok (p : String) :
    ∀ chunks : List (List (String × ℚ)),
      (∀ c, c ∈ chunks → (c.lookup p).isSome = true) →
      chunks.mapM (fun c => dictGet c p) =
        .ok (chunks.map fun c => (c.lookup p).getD 0)
  | [], _ => rfl
  | c :: chunks, h => by
    rw [List.mapM_cons,
      mapM_dictGet_ok p chunks (fun c hc => h c (List.mem_cons_of_mem _ hc))]
    have hc := h c (List.mem_cons_self _ _)
    cases hl : c.lookup p
    case none =>
      rw [hl] at hc
      simp at hc
    case some v =>
      have hd : dictGet c p = .ok v := by rw [dictGet, hl]
      rw [hd, List.map_cons, hl]
      rfl

lemma mapM_dictGet_err (p : String) :
    ∀ chunks : List (List (String × ℚ)),
      (∃ c, c ∈ chunks ∧ c.lookup p = none) →
      chunks.mapM (fun c => dictGet c p) = .error .keyError
  | [], h => by
    obtain ⟨c, hc, -⟩ := h
    exact absurd hc (List.not_mem_nil c)
  | c :: chunks, h => by
    rw [List.mapM_cons]
    cases hl : c.lookup p
    case none =>
      have hd : dictGet c p = .error .keyError := by rw [dictGet, hl]
      rw [hd]
      rfl
    case some v =>
      obtain ⟨c', hc', hl'⟩ := h
      rcases List.mem_cons.mp hc' with heq | hmem
      · rw [heq, hl] at hl'
        exact Option.noConfusion hl'
      · have hd : dictGet c p = .ok v := by rw [dictGet, hl]
        rw [hd, mapM_dictGet_err p chunks ⟨c', hmem, hl'⟩]
        rfl

/-- C9 counterexample: the aggregation loop does not fail with
`InvalidInputError` on an empty chunk sequence — for each requested label
it computes `np.mean([])`, a NaN (modelled `none`), and returns
successfully. -/
theorem aggregate_chunks_counterexample :
    aggregate_chunks ["dog"] [] = .ok [("dog", none)] ∧
    ∀ e, aggregate_chunks ["dog"] [] ≠ .error e := by
  constructor
  · rfl
  · intro e h
    rw [show aggregate_chunks ["dog"] [] = .ok [("dog", none)] from rfl] at h
    exact Except.noConfusion h

/-- C9 amended: the aggregation of `analyze_youtube` performs no
validation.  An empty chunk sequence yields, per label, an undefined
(NaN) mean — modelled `none` — rather than an `InvalidInputError`; a chunk
missing a requested label raises `KeyError`; when the sequence is non-empty
and every chunk carries every requested label, it returns per label the
arithmetic mean of the chunk aggregates, rounded to 4 decimal places. -/
theorem aggregate_chunks_amended (prompt_list : List String)
    (chunk_results : List (List (String × ℚ))) :
    (chunk_results = [] →
      aggregate_chunks prompt_list chunk_results =
        .ok (prompt_list.map fun p => (p, none))) ∧
    ((∃ p, p ∈ prompt_list ∧ ∃ c, c ∈ chunk_results ∧ c.lookup p = none) →
      aggregate_chunks prompt_list chunk_results = .error .keyError) ∧
    (chunk_results ≠ [] →
      (∀ p, p ∈ prompt_list → ∀ c, c ∈ chunk_results → (c.lookup p).isSome = true) →
      aggregate_chunks prompt_list chunk_results =
        .ok (prompt_list.map fun p =>
          (p, some (round4 (npMean (chunk_results.map fun c =>
            (c.lookup p).getD 0)))))) := by
  refine ⟨?_, ?_, ?_⟩
  · intro hc
    subst hc
    induction prompt_list with
    | nil => rfl
    | cons q qs ih =>
      rw [aggregate_chunks] at ih ⊢
      rw [List.mapM_cons, ih]
      rfl
  · intro h
    obtain ⟨p, hp, hbad⟩ := h
    induction prompt_list with
    | nil => exact absurd hp (List.not_mem_nil p)
    | cons q qs ih =>
      rw [aggregate_chunks, List.mapM_cons]
      rcases List.mem_cons.mp hp with heq | hmem
      · subst heq
        rw [show (chunk_results.mapM fun c => dictGet c p).map (fun scores =>
            (p, if scores.length = 0 then none
                else some (round4 (npMean scores)))) =
            Except.error DictError.keyError from by
          rw [mapM_dictGet_err p chunk_results hbad]
          rfl]
        rfl
      · cases hfq : (chunk_results.mapM fun c => dictGet c q).map (fun scores =>
            (q, if scores.length = 0 then none else some (round4 (npMean scores))))
        case error e =>
          cases e
          rfl
        case ok v =>
          have ih2 := ih hmem
          rw [aggregate_chunks] at ih2
          rw [ih2]
          rfl
  · intro hne hall
    induction prompt_list with
    | nil => rfl
    | cons q qs ih =>
      rw [aggregate_chunks, List.mapM_cons]
      have hq := mapM_dictGet_ok q chunk_results
        (fun c hc => hall q (List.mem_cons_self _ _) c hc)
      have hfq : (chunk_results.mapM fun c => dictGet c q).map (fun scores =>
          (q, if scores.length = 0 then none
              else some (round4 (npMean scores)))) =
          .ok (q, some (round4 (npMean (chunk_results.map fun c =>
            (c.lookup q).getD 0)))) := by
        rw [hq]
        have hlen0 : (chunk_results.map fun c => (c.lookup q).getD 0).length ≠ 0 := by
          rw [List.length_map]
          intro hz
          exact hne (List.length_eq_zero.mp hz)
        show Except.ok (q, if (chunk_results.map fun c =>
            (c.lookup q).getD 0).length = 0 then none
            else some (round4 (npMean (chunk_results.map fun c =>
              (c.lookup q).getD 0)))) = _
        rw [if_neg hlen0]
      rw [hfq]
      have ih2 := ih (fun p hp c hc => hall p (List.mem_cons_of_mem _ hp) c hc)
      rw [aggregate_chunks] at ih2
      rw [ih2, List.map_cons]
      rfl

/-- C9 witness: two chunks agreeing on the label set aggregate to the
rounded mean of their per-chunk aggregates. -/
theorem aggregate_chunks_amended_witness :
    aggregate_chunks ["dog"] [[("dog", (1 : ℚ))], [("dog", (2 : ℚ))]] =
      .ok [("dog", some (round4 (npMean [(1 : ℚ), 2])))] := by
  have h := (aggregate_chunks_amended ["dog"]
    [[("dog", (1 : ℚ))], [("dog", (2 : ℚ))]]).2.2 (by decide) (by decide)
  rw [h]
  rfl

/-!
## Rounding order of per-frame and global scores (C10)
-/

/-- C10: the returned global score is the mean of the unrounded per-frame
scores, rounded to 4 decimals only after the mean; the returned frame
series is rounded per frame first; consequently the returned global score
need not equal the mean of the returned (rounded) frame series, witnessed
by `[0.00033, 0]` whose global score is `0.0002` while the mean of its
rounded frames is `0.00015`. -/
theorem global_score_rounding (raw : List ℚ) (_hraw : raw ≠ []) :
    global_score_out raw = round4 (raw.sum / (raw.length : ℚ)) ∧
    (∀ i : Nat, (frame_scores_out raw)[i]? = (raw[i]?).map round4) ∧
    ∃ xs : List ℚ, xs ≠ [] ∧
      global_score_out xs ≠ npMean (frame_scores_out xs) := by
  refine ⟨rfl, ?_, ?_⟩
  · intro i
    rw [frame_scores_out, List.getElem?_map]
  · refine ⟨[mkRat 33 100000, 0], by simp, ?_⟩  
    have h1 : global_score_out [mkRat 33 100000, 0] = mkRat 1 5000 := by
      show round4 (npMean [mkRat 33 100000, 0]) = mkRat 1 5000
      have hm : npMean [mkRat 33 100000, 0] = mkRat 33 200000 := by
        rw [npMean]
        norm_num [Rat.mkRat_eq_div]
      rw [hm, round4,
        show mkRat 33 200000 * 10000 = (33 : ℚ) / 20 by norm_num [Rat.mkRat_eq_div],
        show round ((33 : ℚ) / 20) = 2 by norm_num [round_eq]]
      norm_num [Rat.mkRat_eq_div]
    have h2 : npMean (frame_scores_out [mkRat 33 100000, 0]) = mkRat 3 20000 := by
      show npMean [round4 (mkRat 33 100000), round4 0] = mkRat 3 20000
      have ha : round4 (mkRat 33 100000) = mkRat 3 10000 := by
        rw [round4,
          show mkRat 33 100000 * 10000 = (33 : ℚ) / 10 by norm_num [Rat.mkRat_eq_div],
          show round ((33 : ℚ) / 10) = 3 by norm_num [round_eq]]
        norm_num [Rat.mkRat_eq_div]
      have hb : round4 (0 : ℚ) = 0 := by
        rw [round4]
        norm_num
      rw [npMean, ha, hb]
      norm_num [Rat.mkRat_eq_div]
    rw [h1, h2]
    norm_num [Rat.mkRat_eq_div]

/-- C10 witness: the structural part of `global_score_rounding` applied at
a concrete non-empty series. -/
theorem global_score_rounding_witness :
    global_score_out [(1 : ℚ)] =
      round4 ([(1 : ℚ)].sum / (([(1 : ℚ)].length : Nat) : ℚ)) :=
  (global_score_rounding [(1 : ℚ)] (by simp)).1
